import Mathlib

/-!
Shallow embedding of the sparse-matrix container of `src/sparse_matrix.hpp`
(repository John-Jasper-Doe/Lab6).

The C++ store is `std::map<std::tuple<size_t, ...>, value_type_t>`: an
ordered associative container keyed by the coordinate tuple, compared
lexicographically, with unique keys.  We embed it as an association list
`Store := List (Coord × Value)` kept strictly sorted by the lexicographic
order `coordLt` on coordinates — exactly the representation invariant of
`std::map`.  Coordinates are `List Nat` (the flattened tuple of `size_t`
components), values are `Int` (the demo instantiates `value_type_t = int`),
and the configured default value is passed explicitly as `d`.
-/

namespace SparseMatrix

/-- A coordinate: the ordered components of the `std::tuple<size_t, ...>` key. -/
abbrev Coord := List Nat

/-- Cell values (`value_type_t = int` in the demo program). -/
abbrev Value := Int

/-- The store `data_ : std::map<index_t, value_type_t>`, embedded as a sorted
association list with unique keys. -/
abbrev Store := List (Coord × Value)

/-- Lexicographic strict order on coordinates: the comparison used by
`std::map` on `std::tuple` keys (first differing component decides). -/
def coordLt : Coord → Coord → Bool
  | [], [] => false
  | [], _ :: _ => true
  | _ :: _, [] => false
  | a :: as, b :: bs => if a < b then true else if b < a then false else coordLt as bs

/-- The `std::map` representation invariant: keys strictly ascending. -/
abbrev sortedStore (s : Store) : Prop :=
  s.Pairwise (fun p q => coordLt p.1 q.1 = true)

/-- `data_.find(index_view_)`: lookup of a key in the map. -/
def mapFind : Store → Coord → Option Value
  | [], _ => none
  | (k, w) :: rest, c => if k = c then some w else mapFind rest c

/-- `data_[index_view_] = value`: `std::map::operator[]` followed by
assignment — insert at the sorted position, or overwrite an existing key. -/
def mapInsert : Store → Coord → Value → Store
  | [], c, v => [(c, v)]
  | (k, w) :: rest, c, v =>
      if coordLt c k then (c, v) :: (k, w) :: rest
      else if k = c then (c, v) :: rest
      else (k, w) :: mapInsert rest c v

/-- `data_.erase(it)` where `it = data_.find(c)` succeeded: remove the (unique
under `sortedStore`) entry with key `c`. -/
def mapErase : Store → Coord → Store
  | [], _ => []
  | (k, w) :: rest, c => if k = c then rest else (k, w) :: mapErase rest c

/-- `index_matrix<0>::operator=` (sparse_matrix.hpp lines 278-287): the
terminal proxy's write.  A non-default value is inserted / overwritten; the
default value erases any existing entry (no-op when absent). -/
def set (d : Value) (s : Store) (c : Coord) (v : Value) : Store :=
  if v ≠ d then mapInsert s c v
  else
    match mapFind s c with
    | some _ => mapErase s c
    | none => s

/-- `index_matrix<0>::operator const value_type_t &` (lines 292-295): the
terminal proxy's read — the stored value when present, else the default.
Returned together with the (untouched) store to record that the read
performs no mutation of `data_`. -/
def read (d : Value) (s : Store) (c : Coord) : Value × Store :=
  match mapFind s c with
  | some w => (w, s)
  | none => (d, s)

/-- The value produced by a read (`get` in the spec's CellStore contract). -/
def get (d : Value) (s : Store) (c : Coord) : Value :=
  (read d s c).1

/-- `sparse_matrix::size` (lines 187-189): `data_.size()`. -/
def size (s : Store) : Nat := s.length

/-- `sparse_matrix::clear` (lines 194-196): `data_.clear()`. -/
def clear (_ : Store) : Store := ([] : Store)

/-- `sparse_matrix::operator==` (lines 131-133): `data_ == other.data_`. -/
def matrixEq (s t : Store) : Bool := s = t

/-- `sparse_matrix::operator=` (lines 111-116): copy assignment guarded by
`*this != other` (the C++20 rewrite of `!(data_ == other.data_)`); when the
stores differ the source store is copied into the target. -/
def assignCopy (target source : Store) : Store :=
  if matrixEq target source then target else source

/-- Flatten one map entry the way `const_iterator_matrix::operator*`
(lines 367-370) does: `std::tuple_cat(key, std::tie(value))` — the N
coordinate components in order, followed by the value. -/
def flattenEntry (p : Coord × Value) : List Int :=
  p.1.map Int.ofNat ++ [p.2]

/-- Full enumeration of a matrix: walking `data_` from `begin()` to `end()`
and flattening each entry (main.cpp lines 48-54 consume exactly this). -/
def enumerate (s : Store) : List (List Int) :=
  s.map flattenEntry

/-- Lexicographic strict order on flattened tuples. -/
def intLt : List Int → List Int → Bool
  | [], [] => false
  | [], _ :: _ => true
  | _ :: _, [] => false
  | a :: as, b :: bs => if a < b then true else if b < a then false else intLt as bs

/-- Writing through the mutable traversal element: `iterator_matrix::operator*`
(lines 440-443) hands out the stored value by reference (`std::tie`), so an
assignment through it replaces the stored value in place, with no default
elision and no structural change to the map. -/
def iterWrite (s : Store) (c : Coord) (v : Value) : Store :=
  s.map (fun p => if p.1 = c then (p.1, v) else p)

/-- Mutating operations available on a matrix façade: terminal-proxy writes
and `clear()` (copy and move construction copy / transfer the store value
unchanged, adding no new store contents). -/
inductive MatOp where
  | write (c : Coord) (v : Value)
  | wipe
deriving DecidableEq

/-- The coordinate a façade operation writes to, when it is a write. -/
def opCoord : MatOp → Option Coord
  | .write c _ => some c
  | .wipe => none

/-- Apply one façade operation to a store. -/
def applyOp (d : Value) (s : Store) : MatOp → Store
  | .write c v => set d s c v
  | .wipe => clear s

/-- Run a sequence of façade operations from the empty matrix: the store
states reachable by direct assignments and `clear()`. -/
def applyOps (d : Value) (ops : List MatOp) : Store :=
  ops.foldl (applyOp d) []

/-- A matrix and a copy of it, as produced by the copy constructor
`sparse_matrix(const sparse_matrix &other) : data_(other.data_)` (lines
92-93): the copy starts with its own store holding the same entries. -/
structure CopyPair where
  orig : Store
  cpy : Store
deriving DecidableEq

/-- Copy construction: the new matrix's `data_` is a deep copy of the
source's `data_`; each matrix owns its own store thereafter. -/
def copyCtor (m : Store) : CopyPair := ⟨m, m⟩

/-- A façade operation applied to the copy acts on the copy's own store:
index proxies created from the copy reference the copy's `data_` member. -/
def opOnCpy (d : Value) (w : CopyPair) (op : MatOp) : CopyPair :=
  ⟨w.orig, applyOp d w.cpy op⟩

/-- A façade operation applied to the original acts on the original's store. -/
def opOnOrig (d : Value) (w : CopyPair) (op : MatOp) : CopyPair :=
  ⟨applyOp d w.orig op, w.cpy⟩

/-- Run a sequence of operations on the copy side. -/
def opsOnCpy (d : Value) (w : CopyPair) (ops : List MatOp) : CopyPair :=
  ops.foldl (opOnCpy d) w

/-- Run a sequence of operations on the original side. -/
def opsOnOrig (d : Value) (w : CopyPair) (ops : List MatOp) : CopyPair :=
  ops.foldl (opOnOrig d) w

/-- The demo scenario of main.cpp lines 22-33: a 2-D matrix of `int` with
default 0; `matrix[i][i] = i` for i = 0..9, then
`matrix[i][9-i] = 9-i` for i = 0..9. -/
def demoStoreA : Store :=
  let s1 := (List.range 10).foldl (fun s i => set 0 s [i, i] (Int.ofNat i)) []
  (List.range 10).foldl (fun s i => set 0 s [i, 9 - i] (Int.ofNat (9 - i))) s1

/-! ### Facts about the lexicographic key order -/

/-- The key order is irreflexive. -/
theorem coordLt_irrefl (c : Coord) : coordLt c c = false := by
  induction c with
  | nil => rfl
  | cons a as ih => simp [coordLt, ih]

/-- Strictly smaller keys are distinct. -/
theorem coordLt_ne {a b : Coord} (h : coordLt a b = true) : a ≠ b := by
  intro hab
  subst hab
  rw [coordLt_irrefl] at h
  exact Bool.noConfusion h

/-- The key order is total: two coordinates are equal or comparable. -/
theorem coordLt_total (a b : Coord) : a = b ∨ coordLt a b = true ∨ coordLt b a = true := by
  induction a generalizing b with
  | nil =>
    cases b with
    | nil => exact Or.inl rfl
    | cons y ys => exact Or.inr (Or.inl rfl)
  | cons x xs ih =>
    cases b with
    | nil => exact Or.inr (Or.inr rfl)
    | cons y ys =>
      rcases Nat.lt_trichotomy x y with h | h | h
      · exact Or.inr (Or.inl (by simp [coordLt, h]))
      · subst h
        rcases ih ys with h2 | h2 | h2
        · exact Or.inl (by rw [h2])
        · exact Or.inr (Or.inl (by simp [coordLt, h2]))
        · exact Or.inr (Or.inr (by simp [coordLt, h2]))
      · exact Or.inr (Or.inr (by simp [coordLt, h]))

/-- The key order is asymmetric. -/
theorem coordLt_asymm {a b : Coord} (h : coordLt a b = true) : coordLt b a = false := by
  induction a generalizing b with
  | nil =>
    cases b with
    | nil => simp [coordLt] at h
    | cons y ys => rfl
  | cons x xs ih =>
    cases b with
    | nil => simp [coordLt] at h
    | cons y ys =>
      rcases Nat.lt_trichotomy x y with hl | hl | hl
      · simp [coordLt, hl, Nat.lt_asymm hl]
      · subst hl
        simp [coordLt] at h ⊢
        exact ih h
      · simp [coordLt, hl, Nat.lt_asymm hl] at h

/-- The key order is transitive. -/
theorem coordLt_trans {a b c : Coord} (h1 : coordLt a b = true) (h2 : coordLt b c = true) :
    coordLt a c = true := by
  induction a generalizing b c with
  | nil =>
    cases b with
    | nil => simp [coordLt] at h1
    | cons y ys =>
      cases c with
      | nil => simp [coordLt] at h2
      | cons z zs => rfl
  | cons x xs ih =>
    cases b with
    | nil => simp [coordLt] at h1
    | cons y ys =>
      cases c with
      | nil => simp [coordLt] at h2
      | cons z zs =>
        by_cases hxy : x < y
        · by_cases hyz : y < z
          · simp [coordLt, Nat.lt_trans hxy hyz]
          · by_cases hzy : z < y
            · simp [coordLt, hyz, hzy] at h2
            · have hyz2 : y = z := Nat.le_antisymm (Nat.le_of_not_lt hzy) (Nat.le_of_not_lt hyz)
              subst hyz2
              simp [coordLt, hxy]
        · by_cases hyx : y < x
          · simp [coordLt, hxy, hyx] at h1
          · have hxy2 : x = y := Nat.le_antisymm (Nat.le_of_not_lt hyx) (Nat.le_of_not_lt hxy)
            subst hxy2
            simp [coordLt, hxy] at h1
            by_cases hxz : x < z
            · simp [coordLt, hxz]
            · by_cases hzx : z < x
              · simp [coordLt, hxz, hzx] at h2
              · have hxz2 : x = z := Nat.le_antisymm (Nat.le_of_not_lt hzx) (Nat.le_of_not_lt hxz)
                subst hxz2
                simp [coordLt, hxz] at h2 ⊢
                exact ih h1 h2

/-! ### Facts about lookup, insertion and erasure -/

/-- Looking up the key just inserted yields the inserted value. -/
theorem mapFind_insert_self (s : Store) (c : Coord) (v : Value) :
    mapFind (mapInsert s c v) c = some v := by
  induction s with
  | nil => simp [mapInsert, mapFind]
  | cons p rest ih =>
    obtain ⟨k, w⟩ := p
    by_cases h1 : coordLt c k
    · simp [mapInsert, h1, mapFind]
    · by_cases h2 : k = c
      · simp [mapInsert, h1, h2, mapFind, coordLt_irrefl]
      · simp [mapInsert, h1, h2, mapFind, ih]

/-- Insertion does not disturb lookups at other keys. -/
theorem mapFind_insert_ne (s : Store) {c e : Coord} (v : Value) (h : e ≠ c) :
    mapFind (mapInsert s c v) e = mapFind s e := by
  induction s with
  | nil => simp [mapInsert, mapFind, Ne.symm h]
  | cons p rest ih =>
    obtain ⟨k, w⟩ := p
    by_cases h1 : coordLt c k
    · simp [mapInsert, h1, mapFind, Ne.symm h]
    · by_cases h2 : k = c
      · subst h2
        simp [mapInsert, h1, mapFind, Ne.symm h]
      · simp [mapInsert, h1, h2, mapFind, ih]

/-- Erasing an absent key leaves the store untouched. -/
theorem mapErase_absent {s : Store} {c : Coord} (h : mapFind s c = none) :
    mapErase s c = s := by
  induction s with
  | nil => rfl
  | cons p rest ih =>
    obtain ⟨k, w⟩ := p
    by_cases h2 : k = c
    · simp [mapFind, h2] at h
    · simp [mapFind, h2] at h
      simp [mapErase, h2, ih h]

/-- Erasure does not disturb lookups at other keys. -/
theorem mapFind_erase_ne (s : Store) {c e : Coord} (h : e ≠ c) :
    mapFind (mapErase s c) e = mapFind s e := by
  induction s with
  | nil => rfl
  | cons p rest ih =>
    obtain ⟨k, w⟩ := p
    by_cases h2 : k = c
    · subst h2
      simp [mapErase, mapFind, Ne.symm h]
    · simp [mapErase, mapFind, h2, ih]

/-- A key below every key of the store is absent from it. -/
theorem mapFind_none_of_forall_lt {s : Store} {c : Coord}
    (h : ∀ p ∈ s, coordLt c p.1 = true) : mapFind s c = none := by
  induction s with
  | nil => rfl
  | cons p rest ih =>
    obtain ⟨k, w⟩ := p
    have hk : coordLt c k = true := h (k, w) (by simp)
    have hne : k ≠ c := Ne.symm (coordLt_ne hk)
    simp [mapFind, hne]
    exact ih (fun q hq => h q (by simp [hq]))

/-- In a sorted store the head key is below every key of the tail. -/
theorem sorted_cons_lt {k : Coord} {w : Value} {rest : Store}
    (h : sortedStore ((k, w) :: rest)) {p : Coord × Value} (hp : p ∈ rest) :
    coordLt k p.1 = true :=
  (List.pairwise_cons.mp h).1 p hp

/-- The tail of a sorted store is sorted. -/
theorem sorted_tail {p : Coord × Value} {rest : Store} (h : sortedStore (p :: rest)) :
    sortedStore rest :=
  (List.pairwise_cons.mp h).2

/-- After erasing a key from a sorted store the key is absent. -/
theorem mapFind_erase_self (s : Store) (c : Coord) :
    sortedStore s → mapFind (mapErase s c) c = none := by
  induction s with
  | nil => intro _; rfl
  | cons p rest ih =>
    obtain ⟨k, w⟩ := p
    intro hs
    by_cases h2 : k = c
    · subst h2
      simp [mapErase]
      exact mapFind_none_of_forall_lt (fun q hq => sorted_cons_lt hs hq)
    · simp [mapErase, mapFind, h2]
      exact ih (sorted_tail hs)

/-- Inserting an absent key grows the store by one entry. -/
theorem length_insert_absent {s : Store} {c : Coord} (v : Value) :
    mapFind s c = none → (mapInsert s c v).length = s.length + 1 := by
  induction s with
  | nil => intro _; rfl
  | cons p rest ih =>
    obtain ⟨k, w⟩ := p
    intro h
    by_cases h1 : coordLt c k
    · simp [mapInsert, h1]
    · have h2 : k ≠ c := by
        intro he
        simp [mapFind, he] at h
      simp [mapFind, h2] at h
      simp [mapInsert, h1, h2, ih h]

/-- Overwriting a present key keeps the store's size. -/
theorem length_insert_present {s : Store} {c : Coord} (v : Value) :
    sortedStore s → (mapFind s c).isSome → (mapInsert s c v).length = s.length := by
  induction s with
  | nil => intro _ h; simp [mapFind] at h
  | cons p rest ih =>
    obtain ⟨k, w⟩ := p
    intro hs h
    by_cases h2 : k = c
    · subst h2
      simp [mapInsert, coordLt_irrefl]
    · simp [mapFind, h2] at h
      by_cases h1 : coordLt c k
      · have hnone : mapFind rest c = none :=
          mapFind_none_of_forall_lt (fun q hq => coordLt_trans h1 (sorted_cons_lt hs hq))
        rw [hnone] at h
        simp at h
      · simp [mapInsert, h1, h2, ih (sorted_tail hs) h]

/-- Erasing a present key shrinks the store by one entry. -/
theorem length_erase_present {s : Store} {c : Coord} :
    (mapFind s c).isSome → s.length = (mapErase s c).length + 1 := by
  induction s with
  | nil => intro h; simp [mapFind] at h
  | cons p rest ih =>
    obtain ⟨k, w⟩ := p
    intro h
    by_cases h2 : k = c
    · simp [mapErase, h2]
    · simp [mapFind, h2] at h
      have := ih h
      simp [mapErase, h2]
      omega

/-- Entries of an insertion: the inserted pair or an old entry. -/
theorem mem_mapInsert {s : Store} {c : Coord} {v : Value} {p : Coord × Value} :
    p ∈ mapInsert s c v → p = (c, v) ∨ p ∈ s := by
  induction s with
  | nil =>
    intro h
    simp [mapInsert] at h
    exact Or.inl h
  | cons q rest ih =>
    obtain ⟨k, w⟩ := q
    intro h
    by_cases h1 : coordLt c k
    · simp [mapInsert, h1] at h
      rcases h with h | h | h
      · exact Or.inl (by simp [h])
      · exact Or.inr (by simp [h])
      · exact Or.inr (by simp [h])
    · by_cases h2 : k = c
      · subst h2
        simp [mapInsert, h1, coordLt_irrefl] at h
        rcases h with h | h
        · exact Or.inl (by simp [h])
        · exact Or.inr (by simp [h])
      · simp [mapInsert, h1, h2] at h
        rcases h with h | h
        · exact Or.inr (by simp [h])
        · rcases ih h with h3 | h3
          · exact Or.inl h3
          · exact Or.inr (by simp [h3])

/-- Insertion preserves the sorted-store invariant. -/
theorem sorted_mapInsert {s : Store} {c : Coord} (v : Value) :
    sortedStore s → sortedStore (mapInsert s c v) := by
  induction s with
  | nil => intro _; simp [mapInsert]
  | cons q rest ih =>
    obtain ⟨k, w⟩ := q
    intro hs
    by_cases h1 : coordLt c k
    · rw [show mapInsert ((k, w) :: rest) c v = (c, v) :: (k, w) :: rest by
        simp [mapInsert, h1]]
      refine List.pairwise_cons.mpr ⟨?_, hs⟩
      intro q hq
      rcases List.mem_cons.mp hq with h | h
      · rw [h]
        exact h1
      · exact coordLt_trans h1 (sorted_cons_lt hs h)
    · by_cases h2 : k = c
      · subst h2
        rw [show mapInsert ((k, w) :: rest) k v = (k, v) :: rest by
          simp [mapInsert, h1, coordLt_irrefl]]
        refine List.pairwise_cons.mpr ⟨?_, sorted_tail hs⟩
        intro q hq
        exact sorted_cons_lt hs hq
      · have hkc : coordLt k c = true := by
          rcases coordLt_total c k with he | hl | hl
          · exact absurd he.symm h2
          · exact absurd hl h1
          · exact hl
        rw [show mapInsert ((k, w) :: rest) c v = (k, w) :: mapInsert rest c v by
          simp [mapInsert, h1, h2]]
        refine List.pairwise_cons.mpr ⟨?_, ih (sorted_tail hs)⟩
        intro q hq
        rcases mem_mapInsert hq with h | h
        · rw [h]
          exact hkc
        · exact sorted_cons_lt hs h

/-- Erasure yields a sublist of the store. -/
theorem mapErase_sublist (s : Store) (c : Coord) : (mapErase s c).Sublist s := by
  induction s with
  | nil => exact List.Sublist.refl _
  | cons p rest ih =>
    obtain ⟨k, w⟩ := p
    by_cases h2 : k = c
    · simp [mapErase, h2]
    · rw [show mapErase ((k, w) :: rest) c = (k, w) :: mapErase rest c by
        simp [mapErase, h2]]
      exact List.Sublist.cons₂ _ ih

/-- Erasure preserves the sorted-store invariant. -/
theorem sorted_mapErase {s : Store} (c : Coord) (hs : sortedStore s) :
    sortedStore (mapErase s c) :=
  List.Pairwise.sublist (mapErase_sublist s c) hs

/-- In a sorted store, membership of an entry is lookup success. -/
theorem mem_iff_mapFind {s : Store} {c : Coord} {v : Value} :
    sortedStore s → ((c, v) ∈ s ↔ mapFind s c = some v) := by
  induction s with
  | nil => intro _; simp [mapFind]
  | cons p rest ih =>
    obtain ⟨k, w⟩ := p
    intro hs
    constructor
    · intro hm
      rcases List.mem_cons.mp hm with h | h
      · have hck : c = k := congrArg Prod.fst h
        have hvw : v = w := congrArg Prod.snd h
        subst hck
        subst hvw
        simp [mapFind]
      · have hlt : coordLt k c = true := sorted_cons_lt hs h
        have hne : k ≠ c := coordLt_ne hlt
        simp [mapFind, hne]
        exact (ih (sorted_tail hs)).mp h
    · intro hf
      by_cases h2 : k = c
      · subst h2
        simp [mapFind] at hf
        simp [hf]
      · simp [mapFind, h2] at hf
        exact List.mem_cons.mpr (Or.inr ((ih (sorted_tail hs)).mpr hf))

/-- Lookup success means the entry is in the store (no invariant needed). -/
theorem mapFind_mem {s : Store} {c : Coord} {v : Value} :
    mapFind s c = some v → (c, v) ∈ s := by
  induction s with
  | nil => intro h; simp [mapFind] at h
  | cons p rest ih =>
    obtain ⟨k, w⟩ := p
    intro h
    by_cases h2 : k = c
    · subst h2
      simp [mapFind] at h
      simp [h]
    · simp [mapFind, h2] at h
      exact List.mem_cons.mpr (Or.inr (ih h))

/-- In a sorted store a key occurs in exactly as many entries as lookup
succeeds: once when present, never when absent. -/
theorem countP_key_sorted {s : Store} (c : Coord) :
    sortedStore s →
    s.countP (fun p => decide (p.1 = c)) = (if (mapFind s c).isSome then 1 else 0) := by
  induction s with
  | nil => intro _; simp [mapFind]
  | cons p rest ih =>
    obtain ⟨k, w⟩ := p
    intro hs
    by_cases h2 : k = c
    · subst h2
      have hrest : rest.countP (fun p => decide (p.1 = k)) = 0 := by
        rw [List.countP_eq_zero]
        intro q hq
        simp
        exact Ne.symm (coordLt_ne (sorted_cons_lt hs hq))
      simp [List.countP_cons, hrest, mapFind]
    · simp [List.countP_cons, h2, mapFind, ih (sorted_tail hs)]

/-- Erasing a freshly inserted key restores the store exactly. -/
theorem mapErase_insert_absent {s : Store} {c : Coord} (v : Value)
    (hf : mapFind s c = none) : mapErase (mapInsert s c v) c = s := by
  induction s with
  | nil => simp [mapInsert, mapErase]
  | cons p rest ih =>
    obtain ⟨k, w⟩ := p
    have h2 : k ≠ c := by
      intro he
      simp [mapFind, he] at hf
    have hrest : mapFind rest c = none := by
      simpa [mapFind, h2] using hf
    by_cases h1 : coordLt c k
    · simp [mapInsert, h1, mapErase, h2]
    · simp [mapInsert, h1, h2, mapErase, ih hrest]

/-- Sorted stores with the same lookup function are equal: the enumeration
of a map is determined by its logical content. -/
theorem sorted_ext {s : Store} : ∀ {t : Store}, sortedStore s → sortedStore t →
    (∀ c, mapFind s c = mapFind t c) → s = t := by
  induction s with
  | nil =>
    intro t _ _ h
    cases t with
    | nil => rfl
    | cons q tr =>
      obtain ⟨m, u⟩ := q
      have := h m
      simp [mapFind] at this
  | cons p sr ih =>
    intro t hs ht h
    obtain ⟨k, w⟩ := p
    cases t with
    | nil =>
      have := h k
      simp [mapFind] at this
    | cons q tr =>
      obtain ⟨m, u⟩ := q
      have hkm : k = m := by
        rcases coordLt_total k m with he | hl | hl
        · exact he
        · exfalso
          have h1 : mapFind ((m, u) :: tr) k = none := by
            apply mapFind_none_of_forall_lt
            intro p hp
            rcases List.mem_cons.mp hp with he2 | hm2
            · rw [he2]
              exact hl
            · exact coordLt_trans hl (sorted_cons_lt ht hm2)
          have h2 := h k
          rw [h1] at h2
          simp [mapFind] at h2
        · exfalso
          have h1 : mapFind ((k, w) :: sr) m = none := by
            apply mapFind_none_of_forall_lt
            intro p hp
            rcases List.mem_cons.mp hp with he2 | hm2
            · rw [he2]
              exact hl
            · exact coordLt_trans hl (sorted_cons_lt hs hm2)
          have h2 := h m
          rw [h1] at h2
          simp [mapFind] at h2
      subst hkm
      have hwu : w = u := by
        have := h k
        simpa [mapFind] using this
      subst hwu
      have htl : ∀ c, mapFind sr c = mapFind tr c := by
        intro c
        by_cases hc : c = k
        · subst hc
          rw [mapFind_none_of_forall_lt (fun p hp => sorted_cons_lt hs hp),
              mapFind_none_of_forall_lt (fun p hp => sorted_cons_lt ht hp)]
        · have := h c
          simpa [mapFind, Ne.symm hc] using this
      rw [ih (sorted_tail hs) (sorted_tail ht) htl]

/-! ### Facts about the terminal-proxy write `set` -/

/-- Writing a non-default value stores it at the written coordinate. -/
theorem mapFind_set_self_nondefault (d : Value) (s : Store) (c : Coord) {v : Value}
    (hv : v ≠ d) : mapFind (set d s c v) c = some v := by
  simp [set, hv, mapFind_insert_self]

/-- Writing the default value leaves the written coordinate without entry. -/
theorem mapFind_set_self_default (d : Value) {s : Store} (c : Coord)
    (hs : sortedStore s) : mapFind (set d s c d) c = none := by
  cases hf : mapFind s c with
  | none => simp [set, hf]
  | some w => simp [set, hf, mapFind_erase_self s c hs]

/-- A write does not disturb lookups at other coordinates. -/
theorem mapFind_set_ne (d : Value) (s : Store) {c e : Coord} (v : Value) (h : e ≠ c) :
    mapFind (set d s c v) e = mapFind s e := by
  by_cases hv : v = d
  · subst hv
    cases hf : mapFind s c with
    | none => simp [set, hf]
    | some w => simp [set, hf, mapFind_erase_ne s h]
  · simp [set, hv, mapFind_insert_ne s v h]

/-- A write preserves the sorted-store invariant. -/
theorem sorted_set (d : Value) {s : Store} (c : Coord) (v : Value) (hs : sortedStore s) :
    sortedStore (set d s c v) := by
  by_cases hv : v = d
  · subst hv
    cases hf : mapFind s c with
    | none => simpa [set, hf] using hs
    | some w =>
      simp [set, hf]
      exact sorted_mapErase c hs
  · simp [set, hv]
    exact sorted_mapInsert v hs

/-- Every state reachable from a sorted store by façade operations is sorted. -/
theorem sorted_foldl_ops (d : Value) (ops : List MatOp) :
    ∀ {s : Store}, sortedStore s → sortedStore (ops.foldl (applyOp d) s) := by
  induction ops with
  | nil => intro s hs; exact hs
  | cons op rest ih =>
    intro s hs
    cases op with
    | write c v => exact ih (sorted_set d c v hs)
    | wipe => exact ih List.Pairwise.nil

/-- Every state reachable from the empty matrix is sorted. -/
theorem sorted_applyOps (d : Value) (ops : List MatOp) : sortedStore (applyOps d ops) :=
  sorted_foldl_ops d ops List.Pairwise.nil

/-- A coordinate no operation writes to stays without entry. -/
theorem mapFind_foldl_avoid (d : Value) {c : Coord} (ops : List MatOp) :
    (∀ op ∈ ops, opCoord op ≠ some c) →
    ∀ {s : Store}, mapFind s c = none → mapFind (ops.foldl (applyOp d) s) c = none := by
  induction ops with
  | nil => intro _ s h; exact h
  | cons op rest ih =>
    intro hav s h
    have h1 := hav op (by simp)
    have hrest : ∀ op2 ∈ rest, opCoord op2 ≠ some c := fun op2 h2 => hav op2 (by simp [h2])
    cases op with
    | wipe => exact ih hrest rfl
    | write e v =>
      have hne : c ≠ e := by
        intro he
        subst he
        simp [opCoord] at h1
      exact ih hrest (by rw [show applyOp d s (MatOp.write e v) = set d s e v from rfl,
        mapFind_set_ne d s v hne]; exact h)

/-- The lexicographic order on coordinates transfers to the flattened tuples
the enumeration produces, for coordinates of equal dimensionality. -/
theorem intLt_flatten {c1 : Coord} (v1 v2 : Value) :
    ∀ {c2 : Coord}, c1.length = c2.length → coordLt c1 c2 = true →
    intLt (flattenEntry (c1, v1)) (flattenEntry (c2, v2)) = true := by
  induction c1 with
  | nil =>
    intro c2 hl h
    cases c2 with
    | nil => simp [coordLt] at h
    | cons b bs => simp at hl
  | cons a as ih =>
    intro c2 hl h
    cases c2 with
    | nil => simp [coordLt] at h
    | cons b bs =>
      simp at hl
      rcases Nat.lt_trichotomy a b with h3 | h3 | h3
      · simp [flattenEntry, intLt, Int.ofNat_lt, h3]
      · subst h3
        simp [coordLt] at h
        have h4 := ih hl h
        simpa [flattenEntry, intLt] using h4
      · simp [coordLt, h3, Nat.lt_asymm h3] at h

/-- Mapping the coordinate components into the flattened tuple loses nothing. -/
theorem map_ofNat_inj {a b : Coord} : a.map Int.ofNat = b.map Int.ofNat ↔ a = b := by
  constructor
  · intro h
    exact List.map_injective_iff.mpr (fun x y hxy => Int.ofNat.inj hxy) h
  · intro h
    rw [h]

/-- A write with a coordinate of the matrix's dimensionality keeps every key
at that dimensionality. -/
theorem keylen_set (d : Value) {s : Store} {c : Coord} {v : Value} {n : Nat}
    (hlen : ∀ p ∈ s, p.1.length = n) (hc : c.length = n) :
    ∀ p ∈ set d s c v, p.1.length = n := by
  intro p hp
  by_cases hv : v = d
  · subst hv
    cases hf : mapFind s c with
    | none =>
      simp [set, hf] at hp
      exact hlen p hp
    | some w =>
      simp [set, hf] at hp
      exact hlen p ((mapErase_sublist s c).subset hp)
  · simp [set, hv] at hp
    rcases mem_mapInsert hp with h | h
    · rw [h]
      exact hc
    · exact hlen p h

/-- A write never leaves a default-valued entry behind. -/
theorem noDefault_set (d : Value) {s : Store} (c : Coord) (v : Value)
    (h : ∀ p ∈ s, p.2 ≠ d) : ∀ p ∈ set d s c v, p.2 ≠ d := by
  intro p hp
  by_cases hv : v = d
  · subst hv
    cases hf : mapFind s c with
    | none =>
      simp [set, hf] at hp
      exact h p hp
    | some w =>
      simp [set, hf] at hp
      exact h p ((mapErase_sublist s c).subset hp)
  · simp [set, hv] at hp
    rcases mem_mapInsert hp with h2 | h2
    · rw [h2]
      exact hv
    · exact h p h2

/-! ### The claims -/

/-- C1: for every coordinate c (of the matrix's dimensionality n) and value
v distinct from the default, after assigning v through the fully-bound
terminal proxy, reading c returns v, c appears exactly once in a full
enumeration, and size() grows by one exactly when c held no explicit entry
before the write (and is unchanged when it did). -/
theorem c1_write_nondefault_read_count_size (d : Value) (n : Nat) (s : Store) (c : Coord)
    (v : Value) (hs : sortedStore s) (hlen : ∀ p ∈ s, p.1.length = n)
    (hc : c.length = n) (hv : v ≠ d) :
    get d (set d s c v) c = v ∧
    (enumerate (set d s c v)).countP (fun e => decide (e.take n = c.map Int.ofNat)) = 1 ∧
    size (set d s c v) = (if (mapFind s c).isSome then size s else size s + 1) := by
  refine ⟨?_, ?_, ?_⟩
  · simp [get, read, mapFind_set_self_nondefault d s c hv]
  · have hkeys := @keylen_set d s c v n hlen hc
    rw [enumerate, List.countP_map]
    have hpt : ∀ p ∈ set d s c v,
        ((fun e => decide (e.take n = c.map Int.ofNat)) ∘ flattenEntry) p = true ↔
        (fun q => decide (q.1 = c)) p = true := by
      intro p hp
      have hl : (p.1.map Int.ofNat).length = n := by
        rw [List.length_map]
        exact hkeys p hp
      simp only [Function.comp_apply, decide_eq_true_eq]
      rw [show flattenEntry p = p.1.map Int.ofNat ++ [p.2] from rfl, List.take_left' hl]
      exact map_ofNat_inj
    rw [List.countP_congr hpt, countP_key_sorted c (sorted_set d c v hs),
        mapFind_set_self_nondefault d s c hv]
    rfl
  · cases hf : mapFind s c with
    | some w =>
      have hsome : (mapFind s c).isSome := by simp [hf]
      simp [set, hv, size, hf, length_insert_present v hs hsome]
    | none =>
      simp [set, hv, size, hf, length_insert_absent v hf]

/-- C1 witness: writing 5 at (0,0) into the empty 2-D store. -/
theorem c1_witness :
    get 0 (set 0 [] [0, 0] 5) [0, 0] = 5 ∧
    (enumerate (set 0 [] [0, 0] 5)).countP
      (fun e => decide (e.take 2 = List.map Int.ofNat [0, 0])) = 1 ∧
    size (set 0 ([] : Store) [0, 0] 5) =
      (if (mapFind ([] : Store) [0, 0]).isSome then size ([] : Store)
       else size ([] : Store) + 1) :=
  c1_write_nondefault_read_count_size 0 2 [] [0, 0] 5 List.Pairwise.nil
    (by simp) (by simp) (by decide)

/-- C2: assigning the default value through the terminal proxy removes any
existing entry and is a safe no-op when none exists: the subsequent read
returns the default, size() is unchanged when the coordinate was absent and
shrinks by exactly one when it was present. -/
theorem c2_write_default_removes (d : Value) (s : Store) (c : Coord) (hs : sortedStore s) :
    get d (set d s c d) c = d ∧
    (mapFind s c = none → size (set d s c d) = size s) ∧
    (∀ w, mapFind s c = some w → size (set d s c d) + 1 = size s) := by
  refine ⟨?_, ?_, ?_⟩
  · simp [get, read, mapFind_set_self_default d c hs]
  · intro hf
    simp [set, hf]
  · intro w hf
    have hsome : (mapFind s c).isSome := by simp [hf]
    have h1 := @length_erase_present s c hsome
    simp [set, hf, size]
    omega

/-- C2 witness: writing the default at the present coordinate (0,0) and at
the absent coordinate (0,0) of the empty store. -/
theorem c2_witness :
    get 0 (set 0 [([0, 0], 5)] [0, 0] 0) [0, 0] = 0 ∧
    (mapFind [([0, 0], 5)] [0, 0] = none →
      size (set 0 [([0, 0], 5)] [0, 0] 0) = size [([0, 0], 5)]) ∧
    (∀ w, mapFind [([0, 0], 5)] [0, 0] = some w →
      size (set 0 [([0, 0], 5)] [0, 0] 0) + 1 = size [([0, 0], 5)]) :=
  c2_write_default_removes 0 [([0, 0], 5)] [0, 0] (by simp)

/-- C3: the terminal proxy's read returns the stored value when an explicit
entry exists, the configured default otherwise, and the store is unchanged
by the read; in particular a coordinate no operation ever wrote reads as the
default in every reachable state. -/
theorem c3_read_stored_or_default (d : Value) (s : Store) (c : Coord)
    (hs : sortedStore s) :
    (read d s c).2 = s ∧
    (∀ w, (c, w) ∈ s → get d s c = w) ∧
    ((∀ w, (c, w) ∉ s) → get d s c = d) ∧
    (∀ ops : List MatOp, (∀ op ∈ ops, opCoord op ≠ some c) →
      get d (applyOps d ops) c = d) := by
  refine ⟨?_, ?_, ?_, ?_⟩
  · unfold read
    cases mapFind s c <;> rfl
  · intro w hm
    have hf := (mem_iff_mapFind hs).mp hm
    simp [get, read, hf]
  · intro habs
    cases hf : mapFind s c with
    | none => simp [get, read, hf]
    | some w => exact absurd (mapFind_mem hf) (habs w)
  · intro ops hav
    have hf := @mapFind_foldl_avoid d c ops hav [] rfl
    simp [get, read, applyOps, hf]

/-- C3 witness: reading the present coordinate (0,0) and the never-written
coordinate (5,5) of a one-entry store. -/
theorem c3_witness :
    (read 0 [([0, 0], 5)] [0, 0]).2 = [([0, 0], 5)] ∧
    (∀ w, (([0, 0] : Coord), w) ∈ [([0, 0], (5 : Value))] → get 0 [([0, 0], 5)] [0, 0] = w) ∧
    ((∀ w, (([0, 0] : Coord), w) ∉ [([0, 0], (5 : Value))]) → get 0 [([0, 0], 5)] [0, 0] = 0) ∧
    (∀ ops : List MatOp, (∀ op ∈ ops, opCoord op ≠ some [0, 0]) →
      get 0 (applyOps 0 ops) [0, 0] = 0) :=
  c3_read_stored_or_default 0 [([0, 0], 5)] [0, 0] (by simp)

/-- C4: in every store state reachable from the empty matrix by
terminal-proxy assignments and clear() (copy and move transfer the store's
entries unchanged), no stored entry's value equals the default value. -/
theorem c4_no_default_entry_reachable (d : Value) (ops : List MatOp) :
    ∀ p ∈ applyOps d ops, p.2 ≠ d := by
  have main : ∀ ops2 : List MatOp, ∀ s : Store, (∀ p ∈ s, p.2 ≠ d) →
      ∀ p ∈ ops2.foldl (applyOp d) s, p.2 ≠ d := by
    intro ops2
    induction ops2 with
    | nil => intro s h; exact h
    | cons op rest ih =>
      intro s h
      cases op with
      | write c v => exact ih _ (noDefault_set d c v h)
      | wipe =>
        refine ih _ ?_
        intro p hp
        simp [applyOp, clear] at hp
  intro p hp
  exact main ops [] (by intro q hq; simp at hq) p hp

/-- C4 witness: the entry stored by writing 5 at (0,0) does not carry the
default value 0. -/
theorem c4_witness : (([0, 0], 5) : Coord × Value).2 ≠ (0 : Value) :=
  c4_no_default_entry_reachable 0 [MatOp.write [0, 0] 5] ([0, 0], 5) (by decide)

/-- C5 counterexample: after the demo's diagonal and anti-diagonal writes
the store holds 18 explicit cells, not 20 — the writes `m[0][0] = 0` and
`m[9][0] = 0` carry the default value 0 and are elided by the terminal
proxy instead of being stored. -/
theorem c5_counterexample : ¬ size demoStoreA = 20 := by decide

/-- C5 (amended): on the 2-D demo instance with integer values and default
0, after writing m[i][i] = i and m[i][9-i] = 9-i for every i in 0..9,
size() equals 18 (the two writes whose value is the default, at (0,0) and
(9,0), are elided), reading m[1][1] returns 1 and reading m[0][9] returns 9. -/
theorem c5_demo_size_and_reads :
    size demoStoreA = 18 ∧ get 0 demoStoreA [1, 1] = 1 ∧ get 0 demoStoreA [0, 9] = 9 := by
  decide

/-- C6: a full enumeration of a sorted n-dimensional store yields exactly
the explicit cells, each flattened to the coordinate components in natural
order followed by the value, in ascending lexicographic coordinate order;
and every sorted store with the same logical content — however its cells
were written — enumerates identically. -/
theorem c6_enumeration_order (n : Nat) (s : Store) (hs : sortedStore s)
    (hlen : ∀ p ∈ s, p.1.length = n) :
    (∀ e, e ∈ enumerate s ↔ ∃ c v, mapFind s c = some v ∧ e = flattenEntry (c, v)) ∧
    (enumerate s).Pairwise (fun a b => intLt a b = true) ∧
    (∀ t, sortedStore t → (∀ c, mapFind t c = mapFind s c) → enumerate t = enumerate s) := by
  refine ⟨?_, ?_, ?_⟩
  · intro e
    constructor
    · intro he
      rw [enumerate, List.mem_map] at he
      obtain ⟨p, hp, he2⟩ := he
      exact ⟨p.1, p.2, (mem_iff_mapFind hs).mp (by simpa using hp), he2.symm⟩
    · rintro ⟨c, v, hf, he⟩
      rw [enumerate, List.mem_map]
      exact ⟨(c, v), (mem_iff_mapFind hs).mpr hf, he.symm⟩
  · rw [enumerate, List.pairwise_map]
    refine List.Pairwise.imp_of_mem ?_ hs
    intro p q hp hq hR
    have h1 : p.1.length = n := hlen p hp
    have h2 : q.1.length = n := hlen q hq
    have h3 := @intLt_flatten p.1 p.2 q.2 q.1 (by rw [h1, h2]) hR
    simpa using h3
  · intro t ht hsame
    rw [sorted_ext ht hs hsame]

/-- C6 witness: a two-cell 2-D store. -/
theorem c6_witness :
    (∀ e, e ∈ enumerate [([0, 0], 5), ([1, 2], 7)] ↔
      ∃ c v, mapFind [([0, 0], 5), ([1, 2], 7)] c = some v ∧ e = flattenEntry (c, v)) ∧
    (enumerate [([0, 0], 5), ([1, 2], 7)]).Pairwise (fun a b => intLt a b = true) ∧
    (∀ t, sortedStore t → (∀ c, mapFind t c = mapFind [([0, 0], 5), ([1, 2], 7)] c) →
      enumerate t = enumerate [([0, 0], 5), ([1, 2], 7)]) :=
  c6_enumeration_order 2 [([0, 0], 5), ([1, 2], 7)] (by decide) (by decide)

/-- Writing through the traversal element keeps the written coordinate's
entry, now holding the written value verbatim. -/
theorem mapFind_iterWrite_self (v : Value) {c : Coord} :
    ∀ {s : Store}, (mapFind s c).isSome → mapFind (iterWrite s c v) c = some v := by
  intro s
  induction s with
  | nil => intro h; simp [mapFind] at h
  | cons p rest ih =>
    obtain ⟨k, u⟩ := p
    intro h
    have hmap : iterWrite ((k, u) :: rest) c v =
        (if k = c then (k, v) else (k, u)) :: iterWrite rest c v := by
      simp [iterWrite]
    by_cases h2 : k = c
    · subst h2
      rw [hmap, if_pos rfl]
      simp [mapFind]
    · simp [mapFind, h2] at h
      rw [hmap, if_neg h2]
      simp [mapFind, h2]
      exact ih h

/-- C7: writing through the mutable traversal element replaces the stored
value in place without re-applying default elision: a coordinate holding an
explicit entry still holds an entry after the default value is written
through the traversal element referring to it — a stale explicit entry
whose value equals the default — and the store keeps all its entries. -/
theorem c7_iter_write_bypasses_elision (d : Value) (s : Store) (c : Coord) (w : Value)
    (hf : mapFind s c = some w) :
    mapFind (iterWrite s c d) c = some d ∧ size (iterWrite s c d) = size s :=
  ⟨mapFind_iterWrite_self d (by simp [hf]), by simp [iterWrite, size]⟩

/-- C7 witness: writing the default 0 through the traversal element that
refers to the explicit entry at (0,0) leaves a stale entry with value 0. -/
theorem c7_witness :
    mapFind (iterWrite [([0, 0], 5)] [0, 0] 0) [0, 0] = some 0 ∧
    size (iterWrite [([0, 0], 5)] [0, 0] 0) = size [([0, 0], 5)] :=
  c7_iter_write_bypasses_elision 0 [([0, 0], 5)] [0, 0] 5 (by decide)

/-- C8: copying a matrix produces an independent deep copy: any sequence of
façade operations (writes, clear) applied to the copy leaves the original's
explicit-cell set untouched, and vice versa. -/
theorem c8_copy_is_independent (d : Value) (m : Store) (ops : List MatOp) :
    (opsOnCpy d (copyCtor m) ops).orig = m ∧ (opsOnOrig d (copyCtor m) ops).cpy = m := by
  have h1 : ∀ (ops2 : List MatOp) (w : CopyPair), (opsOnCpy d w ops2).orig = w.orig := by
    intro ops2
    induction ops2 with
    | nil => intro w; rfl
    | cons op rest ih => intro w; exact ih _
  have h2 : ∀ (ops2 : List MatOp) (w : CopyPair), (opsOnOrig d w ops2).cpy = w.cpy := by
    intro ops2
    induction ops2 with
    | nil => intro w; rfl
    | cons op rest ih => intro w; exact ih _
  exact ⟨h1 ops _, h2 ops _⟩

/-- C9: copy assignment deep-copies the source store into the target
(whatever the target held), and self-assignment is a safe no-op leaving the
explicit-cell set unchanged. -/
theorem c9_copy_assign_self_noop (t s : Store) :
    assignCopy t s = s ∧ assignCopy s s = s := by
  constructor
  · by_cases h : t = s
    · simp [assignCopy, matrixEq, h]
    · simp [assignCopy, matrixEq, h]
  · simp [assignCopy, matrixEq]

/-- C10: a write of a non-default value to a coordinate with no explicit
entry, followed by a write of the default value to the same coordinate,
returns the store exactly to its prior state. -/
theorem c10_write_then_default_restores (d : Value) (s : Store) (c : Coord) (v : Value)
    (hf : mapFind s c = none) : set d (set d s c v) c d = s := by
  by_cases hv : v = d
  · subst hv
    simp [set, hf]
  · have h1 : set d s c v = mapInsert s c v := by simp [set, hv]
    rw [h1]
    have h2 : mapFind (mapInsert s c v) c = some v := mapFind_insert_self s c v
    simp [set, h2, mapErase_insert_absent v hf]

/-- C10 witness: 5 written at the fresh coordinate (0,0) of the empty store
and then overwritten with the default 0 restores the empty store. -/
theorem c10_witness : set 0 (set 0 [] [0, 0] 5) [0, 0] 0 = ([] : Store) :=
  c10_write_then_default_restores 0 [] [0, 0] 5 (by decide)

end SparseMatrix
